import Mathlib

/-!
Shallow embedding of the TranQL HTTP API layer (`src/tranql/api.py`) and,
where the repository omits the interpreter core, models of the core built
from the specification.  Definitions mirror the Python source; theorems
settle the frozen claims about error handling, schema and model endpoints,
and the message-merge algebra.
-/

namespace Tranql

/-- Dynamic error values that `StandardAPIResource.handle_exception` can
receive: a `TranQLException` (with a `details` attribute), any other
`Exception`, a plain string, a list of such values, or a value of any
other type (which the handler's `isinstance` chain ignores). -/
inductive Err where
  | tranqlException (msg : String) (details : String)
  | exception (msg : String)
  | str (s : String)
  | list (es : List Err)
  | other

/-- An entry of the `errors` list: a Python dict with insertion-ordered
string keys, modelled as an association list. -/
abbrev ErrorRecord := List (String × String)

/-- The record literal `{"message": ..., "details": ...}` appended by
`handle_exception`. -/
def mkErrorRecord (msg details : String) : ErrorRecord :=
  [("message", msg), ("details", details)]

mutual
/-- The `errors` list accumulated by `handle_exception` (api.py lines
63-78): a list input extends with each element's errors in order; a
`TranQLException` appends `{message: str(e), details: str(e.details) if
e.details else ''}`; any other `Exception` appends `{message, details:
''}`; a string is re-handled as `Exception(e)`; anything else appends
nothing. -/
def errorsOf : Err → List ErrorRecord
  | .tranqlException m d => [mkErrorRecord m (if d ≠ "" then d else "")]
  | .exception m => [mkErrorRecord m ""]
  | .str s => [mkErrorRecord s ""]
  | .list es => errorsOfList es
  | .other => []

/-- In-order accumulation over a list of error values, mirroring the
comprehension `[result["errors"].extend(self.handle_exception(x)["errors"])
for x in e]`. -/
def errorsOfList : List Err → List ErrorRecord
  | [] => []
  | e :: es => errorsOf e ++ errorsOfList es
end

/-- The dict returned by `handle_exception`: an `errors` list and a
`status` string. -/
structure HEResult where
  errors : List ErrorRecord
  status : String
deriving DecidableEq, Repr

/-- Embeds `StandardAPIResource.handle_exception (e, warning=False)` (api.py
lines 63-88): builds the `errors` list per the `isinstance` chain, then
sets `status` to `"Warning"` when `warning` is true, else `"Error"`.  It
returns the dict and never raises. -/
def handle_exception (e : Err) (warning : Bool) : HEResult :=
  { errors := errorsOf e
    status := if warning then "Warning" else "Error" }

/-- Whether an error value is one of the three non-list handled kinds. -/
def Err.isAtom : Err → Bool
  | .tranqlException _ _ => true
  | .exception _ => true
  | .str _ => true
  | _ => false

/-- Whether an error value is an exception instance (the only values
Python's `except Exception as e` can bind). -/
def Err.isExceptionLike : Err → Bool
  | .tranqlException _ _ => true
  | .exception _ => true
  | _ => false

/-- The message carried by an atomic error value. -/
def Err.message : Err → String
  | .tranqlException m _ => m
  | .exception m => m
  | .str s => s
  | .other => ""
  | .list _ => ""

/-- The single record an atomic error value contributes to the `errors`
list. -/
def Err.atomRecord : Err → ErrorRecord
  | .tranqlException m d => mkErrorRecord m (if d ≠ "" then d else "")
  | .exception m => mkErrorRecord m ""
  | .str s => mkErrorRecord s ""
  | _ => []

theorem errorsOf_atom (e : Err) (h : e.isAtom = true) :
    errorsOf e = [e.atomRecord] := by
  cases e <;> simp [Err.isAtom] at h <;> rfl

theorem errorsOfList_atoms (es : List Err) (h : ∀ e ∈ es, e.isAtom = true) :
    errorsOfList es = es.map Err.atomRecord := by
  induction es with
  | nil => rfl
  | cons e es ih =>
    rw [errorsOfList, errorsOf_atom e (h e (List.mem_cons_self e es)),
      List.map_cons, List.singleton_append]
    rw [ih fun x hx => h x (List.mem_cons_of_mem e hx)]

/-- A node of a GraphMessage: an id and its set of concept types (spec
§3: `type/name fields are unioned (multiple types retained as a set)`). -/
structure Node where
  id : String
  types : Finset String
deriving DecidableEq

/-- An edge of a GraphMessage, identified for deduplication by
`(source id, target id, predicate type)` (spec §4.4). -/
structure Edge where
  source_id : String
  target_id : String
  type : String
deriving DecidableEq

/-- The universal wire/result shape (spec §3): a node set and an edge
set. -/
structure GraphMessage where
  nodes : List Node
  edges : List Edge
deriving DecidableEq

/-- Modelled from the spec: merging one node into the accumulated node
list under the default `(id)` deduplication key (§4.4) — if a node with
the same id exists, union the type sets onto it (first-seen id kept);
otherwise append the node. -/
def addNode (ns : List Node) (n : Node) : List Node :=
  if ns.any (fun m => m.id == n.id) then
    ns.map (fun m => if m.id == n.id then { m with types := m.types ∪ n.types } else m)
  else
    ns ++ [n]

/-- Modelled from the spec: merging one edge into the accumulated edge
list — edges deduplicate on `(source id, target id, predicate type)`
(§4.4); a duplicate is dropped, otherwise the edge is appended. -/
def addEdge (es : List Edge) (e : Edge) : List Edge :=
  if es.any (fun f => f.source_id == e.source_id && f.target_id == e.target_id
      && f.type == e.type) then
    es
  else
    es ++ [e]

/-- Modelled from the spec: merging one message into the accumulated
message, node by node and edge by edge. -/
def mergeMessage (acc m : GraphMessage) : GraphMessage :=
  { nodes := m.nodes.foldl addNode acc.nodes
    edges := m.edges.foldl addEdge acc.edges }

/-- The TranQL interpreter object as the API layer uses it: constructed
from an options mapping (`TranQL(options=options)`). -/
structure TranQL where
  options : List (String × Bool)

/-- Modelled from the spec: `SelectStatement.merge_results (messages,
tranql)` — the message-merge algorithm of §4.4 (not under src/), at the
interpreter's default options (identity-based deduplication): fold the
ordered sequence of messages into one, deduplicating nodes by id with
type-set union and edges by `(source, target, type)`. -/
def SelectStatement.merge_results (messages : List GraphMessage)
    (tranql : TranQL) : GraphMessage :=
  messages.foldl mergeMessage { nodes := [], edges := [] }

/-- The set of node ids occurring in a node list. -/
def nodeIds (ns : List Node) : Finset String :=
  (ns.map Node.id).toFinset

/-- The aggregate type set recorded for one node id across a node list. -/
def nodeTypes : List Node → String → Finset String
  | [], _ => ∅
  | n :: ns, i => if n.id = i then n.types ∪ nodeTypes ns i else nodeTypes ns i

/-- The set of `(source, target, type)` deduplication keys of an edge
list. -/
def edgeKeys (es : List Edge) : Finset (String × String × String) :=
  (es.map (fun e => (e.source_id, e.target_id, e.type))).toFinset

/-- Equality of messages as node/edge sets, ignoring order and the
attribute-conflict tiebreak (spec §8): same node ids, same aggregate
type set per id, same edge keys. -/
def GraphEq (G H : GraphMessage) : Prop :=
  nodeIds G.nodes = nodeIds H.nodes ∧
  (∀ i, nodeTypes G.nodes i = nodeTypes H.nodes i) ∧
  edgeKeys G.edges = edgeKeys H.edges

theorem mem_nodeIds {ns : List Node} {x : String} :
    x ∈ nodeIds ns ↔ ∃ m ∈ ns, m.id = x := by
  simp [nodeIds]

theorem mem_nodeTypes {ns : List Node} {i x : String} :
    x ∈ nodeTypes ns i ↔ ∃ m ∈ ns, m.id = i ∧ x ∈ m.types := by
  induction ns with
  | nil => simp [nodeTypes]
  | cons m ms ih =>
    rw [nodeTypes]
    split
    case isTrue h => simp [Finset.mem_union, ih, h]
    case isFalse h =>
      simp only [ih, List.mem_cons]
      constructor
      · rintro ⟨m', hm', hi, hx⟩
        exact ⟨m', Or.inr hm', hi, hx⟩
      · rintro ⟨m', hm' | hm', hi, hx⟩
        · exact absurd (hm' ▸ hi) h
        · exact ⟨m', hm', hi, hx⟩

theorem mem_edgeKeys {es : List Edge} {k : String × String × String} :
    k ∈ edgeKeys es ↔ ∃ e ∈ es, (e.source_id, e.target_id, e.type) = k := by
  simp [edgeKeys]

theorem nodeTypes_append (ns ms : List Node) (i : String) :
    nodeTypes (ns ++ ms) i = nodeTypes ns i ∪ nodeTypes ms i := by
  induction ns with
  | nil => simp [nodeTypes]
  | cons n ns ih =>
    rw [List.cons_append, nodeTypes, nodeTypes, ih]
    split
    · rw [Finset.union_assoc]
    · rfl

theorem id_update (m n : Node) :
    (if m.id == n.id then { m with types := m.types ∪ n.types } else m).id
      = m.id := by
  split <;> rfl

theorem types_update (m n : Node) :
    (if m.id == n.id then { m with types := m.types ∪ n.types } else m).types
      = if m.id = n.id then m.types ∪ n.types else m.types := by
  by_cases h : m.id = n.id <;> simp [h]

theorem mem_nodeIds_addNode {ns : List Node} {n : Node} {x : String} :
    x ∈ nodeIds (addNode ns n) ↔ x ∈ nodeIds ns ∨ x = n.id := by
  unfold addNode
  split
  case isTrue h =>
    obtain ⟨m0, hm0, hb⟩ := List.any_eq_true.mp h
    rw [beq_iff_eq] at hb
    simp only [mem_nodeIds, List.mem_map]
    constructor
    · rintro ⟨m', ⟨m, hm, rfl⟩, hid⟩
      rw [id_update] at hid
      exact Or.inl ⟨m, hm, hid⟩
    · rintro (⟨m, hm, hid⟩ | rfl)
      · exact ⟨_, ⟨m, hm, rfl⟩, by rw [id_update]; exact hid⟩
      · exact ⟨_, ⟨m0, hm0, rfl⟩, by rw [id_update]; exact hb⟩
  case isFalse h =>
    simp only [mem_nodeIds, List.mem_append, List.mem_singleton]
    constructor
    · rintro ⟨m, hm | rfl, hid⟩
      · exact Or.inl ⟨m, hm, hid⟩
      · exact Or.inr hid.symm
    · rintro (⟨m, hm, hid⟩ | rfl)
      · exact ⟨m, Or.inl hm, hid⟩
      · exact ⟨n, Or.inr rfl, rfl⟩

theorem mem_nodeTypes_addNode {ns : List Node} {n : Node} {i x : String} :
    x ∈ nodeTypes (addNode ns n) i ↔
      x ∈ nodeTypes ns i ∨ (n.id = i ∧ x ∈ n.types) := by
  unfold addNode
  split
  case isTrue h =>
    obtain ⟨m0, hm0, hb⟩ := List.any_eq_true.mp h
    rw [beq_iff_eq] at hb
    simp only [mem_nodeTypes, List.mem_map]
    constructor
    · rintro ⟨m', ⟨m, hm, rfl⟩, hid, hx⟩
      rw [id_update] at hid
      rw [types_update] at hx
      by_cases hmn : m.id = n.id
      · rw [if_pos hmn] at hx
        rcases Finset.mem_union.mp hx with hx | hx
        · exact Or.inl ⟨m, hm, hid, hx⟩
        · exact Or.inr ⟨hmn ▸ hid, hx⟩
      · rw [if_neg hmn] at hx
        exact Or.inl ⟨m, hm, hid, hx⟩
    · rintro (⟨m, hm, hid, hx⟩ | ⟨hni, hx⟩)
      · refine ⟨_, ⟨m, hm, rfl⟩, ?_, ?_⟩
        · rw [id_update]; exact hid
        · rw [types_update]
          by_cases hmn : m.id = n.id
          · rw [if_pos hmn]; exact Finset.mem_union_left _ hx
          · rw [if_neg hmn]; exact hx
      · refine ⟨_, ⟨m0, hm0, rfl⟩, ?_, ?_⟩
        · rw [id_update, hb]; exact hni
        · rw [types_update, if_pos hb]
          exact Finset.mem_union_right _ hx
  case isFalse h =>
    rw [nodeTypes_append, Finset.mem_union]
    have hone : nodeTypes [n] i = if n.id = i then n.types else ∅ := by
      rw [nodeTypes]
      split <;> simp [nodeTypes]
    rw [hone]
    by_cases hni : n.id = i <;> simp [hni]

theorem mem_edgeKeys_addEdge {es : List Edge} {e : Edge}
    {k : String × String × String} :
    k ∈ edgeKeys (addEdge es e) ↔
      k ∈ edgeKeys es ∨ k = (e.source_id, e.target_id, e.type) := by
  unfold addEdge
  split
  case isTrue h =>
    obtain ⟨f, hf, hb⟩ := List.any_eq_true.mp h
    simp only [Bool.and_eq_true, beq_iff_eq] at hb
    obtain ⟨⟨hs, ht⟩, hy⟩ := hb
    simp only [mem_edgeKeys]
    constructor
    · exact fun hk => Or.inl hk
    · rintro (hk | rfl)
      · exact hk
      · exact ⟨f, hf, by rw [hs, ht, hy]⟩
  case isFalse h =>
    simp only [mem_edgeKeys, List.mem_append, List.mem_singleton]
    constructor
    · rintro ⟨f, hf | rfl, hk⟩
      · exact Or.inl ⟨f, hf, hk⟩
      · exact Or.inr hk.symm
    · rintro (⟨f, hf, hk⟩ | rfl)
      · exact ⟨f, Or.inl hf, hk⟩
      · exact ⟨e, Or.inr rfl, rfl⟩

theorem mem_nodeIds_foldl (l ns : List Node) (x : String) :
    x ∈ nodeIds (l.foldl addNode ns) ↔ x ∈ nodeIds ns ∨ x ∈ nodeIds l := by
  induction l generalizing ns with
  | nil => simp [nodeIds]
  | cons n l ih =>
    rw [List.foldl_cons, ih, mem_nodeIds_addNode]
    simp only [mem_nodeIds, List.mem_cons]
    constructor
    · rintro ((hx | rfl) | ⟨m, hm, hid⟩)
      · exact Or.inl hx
      · exact Or.inr ⟨n, Or.inl rfl, rfl⟩
      · exact Or.inr ⟨m, Or.inr hm, hid⟩
    · rintro (hx | ⟨m, hm | hm, hid⟩)
      · exact Or.inl (Or.inl hx)
      · exact Or.inl (Or.inr (hm ▸ hid.symm))
      · exact Or.inr ⟨m, hm, hid⟩

theorem mem_nodeTypes_foldl (l ns : List Node) (i x : String) :
    x ∈ nodeTypes (l.foldl addNode ns) i ↔
      x ∈ nodeTypes ns i ∨ x ∈ nodeTypes l i := by
  induction l generalizing ns with
  | nil => simp [nodeTypes]
  | cons n l ih =>
    rw [List.foldl_cons, ih, nodeTypes]
    simp only [mem_nodeTypes_addNode]
    split
    case isTrue hni =>
      rw [Finset.mem_union]
      tauto
    case isFalse hni =>
      have : ¬ (n.id = i ∧ x ∈ n.types) := fun hc => hni hc.1
      tauto

theorem mem_edgeKeys_foldl (l es : List Edge) (k : String × String × String) :
    k ∈ edgeKeys (l.foldl addEdge es) ↔ k ∈ edgeKeys es ∨ k ∈ edgeKeys l := by
  induction l generalizing es with
  | nil => simp [edgeKeys]
  | cons e l ih =>
    rw [List.foldl_cons, ih, mem_edgeKeys_addEdge]
    simp only [mem_edgeKeys, List.mem_cons]
    constructor
    · rintro ((hk | rfl) | ⟨f, hf, hk⟩)
      · exact Or.inl hk
      · exact Or.inr ⟨e, Or.inl rfl, rfl⟩
      · exact Or.inr ⟨f, Or.inr hf, hk⟩
    · rintro (hk | ⟨f, hf | hf, hk⟩)
      · exact Or.inl (Or.inl hk)
      · exact Or.inl (Or.inr (hf ▸ hk.symm))
      · exact Or.inr ⟨f, hf, hk⟩

theorem mem_nodeIds_mergeMessage {S G : GraphMessage} {x : String} :
    x ∈ nodeIds (mergeMessage S G).nodes ↔
      x ∈ nodeIds S.nodes ∨ x ∈ nodeIds G.nodes :=
  mem_nodeIds_foldl G.nodes S.nodes x

theorem mem_nodeTypes_mergeMessage {S G : GraphMessage} {i x : String} :
    x ∈ nodeTypes (mergeMessage S G).nodes i ↔
      x ∈ nodeTypes S.nodes i ∨ x ∈ nodeTypes G.nodes i :=
  mem_nodeTypes_foldl G.nodes S.nodes i x

theorem mem_edgeKeys_mergeMessage {S G : GraphMessage}
    {k : String × String × String} :
    k ∈ edgeKeys (mergeMessage S G).edges ↔
      k ∈ edgeKeys S.edges ∨ k ∈ edgeKeys G.edges :=
  mem_edgeKeys_foldl G.edges S.edges k

theorem graphEq_of_mem {G H : GraphMessage}
    (h1 : ∀ x, x ∈ nodeIds G.nodes ↔ x ∈ nodeIds H.nodes)
    (h2 : ∀ i x, x ∈ nodeTypes G.nodes i ↔ x ∈ nodeTypes H.nodes i)
    (h3 : ∀ k, k ∈ edgeKeys G.edges ↔ k ∈ edgeKeys H.edges) :
    GraphEq G H :=
  ⟨Finset.ext h1, fun i => Finset.ext (h2 i), Finset.ext h3⟩

theorem merge_results_pair (A B : GraphMessage) (t : TranQL) :
    SelectStatement.merge_results [A, B] t =
      mergeMessage (mergeMessage { nodes := [], edges := [] } A) B := rfl

theorem merge_results_triple (A B C : GraphMessage) (t : TranQL) :
    SelectStatement.merge_results [A, B, C] t =
      mergeMessage (mergeMessage (mergeMessage { nodes := [], edges := [] } A) B) C := rfl

theorem merge_results_single (A : GraphMessage) (t : TranQL) :
    SelectStatement.merge_results [A] t =
      mergeMessage { nodes := [], edges := [] } A := rfl

theorem nodeIds_nil : nodeIds ([] : List Node) = ∅ := rfl

theorem nodeTypes_nil (i : String) : nodeTypes ([] : List Node) i = ∅ := rfl

theorem edgeKeys_nil : edgeKeys ([] : List Edge) = ∅ := rfl

/-- C5: the merge operation exposed by the merge-messages endpoint is
commutative over input order as node/edge sets (ignoring the
attribute-conflict tiebreak), satisfies
`merge([merge([A,B]),C]) == merge([A,B,C])`, and `merge([A]) == A`. -/
theorem merge_results_algebra (A B C : GraphMessage) (t : TranQL) :
    GraphEq (SelectStatement.merge_results [A, B] t)
        (SelectStatement.merge_results [B, A] t) ∧
    GraphEq (SelectStatement.merge_results
          [SelectStatement.merge_results [A, B] t, C] t)
        (SelectStatement.merge_results [A, B, C] t) ∧
    GraphEq (SelectStatement.merge_results [A] t) A := by
  refine ⟨?_, ?_, ?_⟩ <;>
    refine graphEq_of_mem (fun x => ?_) (fun i x => ?_) (fun k => ?_) <;>
    simp only [merge_results_pair, merge_results_triple, merge_results_single,
      mem_nodeIds_mergeMessage, mem_nodeTypes_mergeMessage,
      mem_edgeKeys_mergeMessage, nodeIds_nil, nodeTypes_nil, edgeKeys_nil,
      Finset.not_mem_empty] <;>
    tauto

/-- The outcome of `tranql.execute (query)` as observed by the endpoint:
either execution completes with the result stored in `context.mem` and
the accumulated `requestErrors`, or `execute` raises an exception with
some `requestErrors` already accumulated in `tranql.context.mem`. -/
inductive ExecOutcome where
  | success (result : GraphMessage) (requestErrors : List Err)
  | failure (e : Err) (requestErrors : List Err)

/-- The dict returned by the query endpoint: the partial result's
content (when any), and the `errors`/`status` keys added by
`result.update(errors)` (absent when no errors were handled). -/
structure QueryResponse where
  result : Option GraphMessage
  errors : Option (List ErrorRecord)
  status : Option String

namespace TranQLQuery

/-- Embeds `TranQLQuery.post` (api.py lines 264-323), after the request fields
are read: on completion the result is `context.mem['result']`; when
`context.mem['requestErrors']` is non-empty the dict
`handle_exception(requestErrors, warning=True)` is merged into the
result via `result.update(errors)`.  When `execute` raises `e`, the
response is `handle_exception([e, *requestErrors])`, replacing the
result wholesale. -/
def post : ExecOutcome → QueryResponse
  | .success result requestErrors =>
    if requestErrors.length > 0 then
      let he := handle_exception (.list requestErrors) true
      { result := some result, errors := some he.errors, status := some he.status }
    else
      { result := some result, errors := none, status := none }
  | .failure e requestErrors =>
    let he := handle_exception (.list (e :: requestErrors)) false
    { result := none, errors := some he.errors, status := some he.status }

end TranQLQuery

/-- C1: when execution completes with a non-empty `requestErrors`
sequence, the response carries the partial result together with an
`errors` list holding one entry per accumulated request error, in
order with none omitted, and `status` equal to `"Warning"`. -/
theorem query_post_warning (result : GraphMessage) (requestErrors : List Err)
    (hne : requestErrors ≠ [])
    (hatom : ∀ e ∈ requestErrors, e.isAtom = true) :
    (TranQLQuery.post (.success result requestErrors)).result = some result ∧
    (TranQLQuery.post (.success result requestErrors)).status = some "Warning" ∧
    (TranQLQuery.post (.success result requestErrors)).errors =
      some (requestErrors.map Err.atomRecord) := by
  have hlen : requestErrors.length > 0 := List.length_pos.mpr hne
  rw [TranQLQuery.post, if_pos hlen]
  refine ⟨rfl, rfl, ?_⟩
  simp only [handle_exception, errorsOf]
  rw [errorsOfList_atoms requestErrors hatom]

theorem query_post_warning_witness :
    (TranQLQuery.post (.success { nodes := [], edges := [] }
        [.exception "timeout"])).status = some "Warning" ∧
    (TranQLQuery.post (.success { nodes := [], edges := [] }
        [.exception "timeout"])).errors =
      some [[("message", "timeout"), ("details", "")]] := by
  have h := query_post_warning { nodes := [], edges := [] }
    [.exception "timeout"] (by simp) (by simp [Err.isAtom])
  exact ⟨h.2.1, h.2.2⟩

/-- C2: when `execute` raises, the response has status `"Error"`, a
non-empty errors list whose first entry carries the raised exception's
message followed by one entry per previously accumulated request error,
and no result graph. -/
theorem query_post_error (e : Err) (requestErrors : List Err)
    (hexc : e.isExceptionLike = true)
    (hatom : ∀ x ∈ requestErrors, x.isAtom = true) :
    (TranQLQuery.post (.failure e requestErrors)).status = some "Error" ∧
    (TranQLQuery.post (.failure e requestErrors)).result = none ∧
    (TranQLQuery.post (.failure e requestErrors)).errors =
      some (e.atomRecord :: requestErrors.map Err.atomRecord) ∧
    e.atomRecord.head? = some ("message", e.message) := by
  have hat : e.isAtom = true := by
    cases e <;> simp [Err.isExceptionLike] at hexc <;> rfl
  refine ⟨rfl, rfl, ?_, ?_⟩
  · rw [TranQLQuery.post]
    simp only [handle_exception, errorsOf]
    rw [errorsOfList_atoms (e :: requestErrors)
      (by intro x hx
          rcases List.mem_cons.mp hx with rfl | hx
          · exact hat
          · exact hatom x hx)]
    rw [List.map_cons]
  · cases e <;> simp [Err.isExceptionLike] at hexc <;>
      simp [Err.atomRecord, Err.message, mkErrorRecord]

theorem query_post_error_witness :
    (TranQLQuery.post (.failure (.exception "parse failed")
        [.str "step error"])).status = some "Error" ∧
    (TranQLQuery.post (.failure (.exception "parse failed")
        [.str "step error"])).result = none ∧
    (TranQLQuery.post (.failure (.exception "parse failed")
        [.str "step error"])).errors =
      some [[("message", "parse failed"), ("details", "")],
            [("message", "step error"), ("details", "")]] := by
  have h := query_post_error (.exception "parse failed") [.str "step error"]
    (by rfl) (by simp [Err.isAtom])
  exact ⟨h.1, h.2.1, h.2.2.1⟩

mutual
theorem errorsOf_keys (e : Err) :
    (errorsOf e).all
      (fun r => r.map Prod.fst == ["message", "details"]) = true := by
  cases e with
  | tranqlException m d => simp [errorsOf, mkErrorRecord]
  | exception m => simp [errorsOf, mkErrorRecord]
  | str s => simp [errorsOf, mkErrorRecord]
  | list es => rw [errorsOf]; exact errorsOfList_keys es
  | other => rfl

theorem errorsOfList_keys (es : List Err) :
    (errorsOfList es).all
      (fun r => r.map Prod.fst == ["message", "details"]) = true := by
  cases es with
  | nil => rfl
  | cons e es =>
    rw [errorsOfList, List.all_append, errorsOf_keys e, errorsOfList_keys es]
    rfl
end

/-- C3 (counterexample): the exception handler renders a plain
`Exception` as a record whose keys are exactly `message` and `details`;
no `kind` key is present, contradicting the claimed
`{kind, message, details}` shape. -/
theorem handle_exception_no_kind :
    (handle_exception (.exception "failure") false).errors =
      [[("message", "failure"), ("details", "")]] ∧
    "kind" ∉ (((handle_exception (.exception "failure") false).errors.headD
      []).map Prod.fst) := by
  constructor
  · simp [handle_exception, errorsOf, mkErrorRecord]
  · simp [handle_exception, errorsOf, mkErrorRecord]

/-- C3 (amended): every error reported by the exception handler — for
every input that is a TranQLException, a plain Exception, a string, or a
list of these — is rendered as a record with the uniform shape
`{message, details}` appended to an ordered errors sequence rather than
thrown. -/
theorem handle_exception_record_shape (e : Err) (warning : Bool) :
    ((handle_exception e warning).errors).all
      (fun r => r.map Prod.fst == ["message", "details"]) = true :=
  errorsOf_keys e

/-- C8: for every error value (including values of unhandled types) and
every warning flag, the exception handler totally returns a dict whose
`errors` key holds a list and whose `status` is `"Warning"` when the
flag is true and `"Error"` otherwise. -/
theorem handle_exception_status (e : Err) (warning : Bool) :
    (handle_exception e warning).status =
      (if warning then "Warning" else "Error") := rfl

theorem errorsOfList_eq_flatten (es : List Err) :
    errorsOfList es = (es.map errorsOf).flatten := by
  induction es with
  | nil => rfl
  | cons e es ih => rw [errorsOfList, List.map_cons, List.flatten_cons, ih]

/-- C9: handling a list of error values yields the in-order
concatenation of the errors lists obtained by handling each element
individually; the empty list yields an empty errors list even though the
status is `"Error"`. -/
theorem handle_exception_list_concat (es : List Err) :
    (handle_exception (.list es) false).errors =
      (es.map (fun e => (handle_exception e false).errors)).flatten ∧
    (handle_exception (.list ([] : List Err)) false).errors = [] ∧
    (handle_exception (.list ([] : List Err)) false).status = "Error" := by
  refine ⟨?_, rfl, rfl⟩
  show errorsOf (.list es) = _
  rw [errorsOf, errorsOfList_eq_flatten]
  rfl

/-- A schema triple with its owning source (spec §3, SchemaEdge):
"source X can answer queries shaped subject→predicate→object". -/
structure SchemaEdge where
  subject : String
  predicate : String
  object : String
  source : String
deriving DecidableEq

/-- The outcome of attempting one source's schema fetch: its supported
triples, or a per-source failure. -/
inductive SourceOutcome where
  | ok (source : String) (edges : List SchemaEdge)
  | err (source : String) (msg : String)

/-- The state of a built `Schema` object as the endpoint reads it: the
assembled graph and the accumulated `loadErrors`. -/
structure SchemaBuild where
  schema_graph : List SchemaEdge
  loadErrors : List Err

/-- Modelled from the spec: the `Schema` constructor
(tranql.tranql_schema, not under src/) — per §4.2, each source is
fetched independently; successful sources' triples are unioned into the
graph and each per-source failure is appended to `loadErrors`;
construction never aborts on a source failure. -/
def Schema.build (outcomes : List SourceOutcome) : SchemaBuild :=
  { schema_graph := outcomes.foldl
      (fun acc o => match o with
        | .ok _ es => acc ++ es
        | .err _ _ => acc) []
    loadErrors := outcomes.foldl
      (fun acc o => match o with
        | .ok _ _ => acc
        | .err s m => acc ++ [.exception (s ++ ": " ++ m)]) [] }

/-- The dict returned by the schema endpoint: always a `schema` key;
`errors` and `status` keys only copied in when load errors exist. -/
structure SchemaResponse where
  schema : Option (List SchemaEdge)
  errors : Option (List ErrorRecord)
  status : Option String

namespace SchemaGraph

/-- Embeds `SchemaGraph.get` (api.py lines 387-423): builds the schema, always
puts the translated graph under the `schema` key, and only when
`len(schema.loadErrors) > 0` copies every key of
`handle_exception(schema.loadErrors, warning=True)` into the response. -/
def get (outcomes : List SourceOutcome) : SchemaResponse :=
  if (Schema.build outcomes).loadErrors.length > 0 then
    { schema := some (Schema.build outcomes).schema_graph
      errors := some (handle_exception
        (.list (Schema.build outcomes).loadErrors) true).errors
      status := some (handle_exception
        (.list (Schema.build outcomes).loadErrors) true).status }
  else
    { schema := some (Schema.build outcomes).schema_graph
      errors := none
      status := none }

end SchemaGraph

/-- C4: the schema endpoint's response always contains the assembled
schema graph; when the build recorded load errors the response
additionally carries them with status `"Warning"`, and load errors never
suppress or replace the schema. -/
theorem schema_get_always_has_schema (outcomes : List SourceOutcome) :
    (SchemaGraph.get outcomes).schema =
      some (Schema.build outcomes).schema_graph ∧
    (SchemaGraph.get outcomes).status =
      (if (Schema.build outcomes).loadErrors.isEmpty then none
       else some "Warning") ∧
    (SchemaGraph.get outcomes).errors =
      (if (Schema.build outcomes).loadErrors.isEmpty then none
       else some (errorsOfList (Schema.build outcomes).loadErrors)) := by
  rw [SchemaGraph.get]
  cases h : (Schema.build outcomes).loadErrors with
  | nil => simp
  | cons e es =>
    rw [if_pos (by simp), if_neg (by simp), if_neg (by simp)]
    refine ⟨rfl, rfl, ?_⟩
    simp [handle_exception, errorsOf]

/-- A concept type of the taxonomy (spec §3): canonical name, parent
names, synonym names. -/
structure ConceptType where
  name : String
  parents : List String
  synonyms : List String

/-- A relation type of the taxonomy (spec §3): canonical name and
synonym names. -/
structure RelationType where
  name : String
  synonyms : List String

/-- Modelled from the spec: the `ConceptModel` (tranql.concept, not
under src/) — a name-keyed concept table `by_name` and, separate from
it, a name-keyed relation lookup table `relations_by_name` (spec §3). -/
structure ConceptModel where
  by_name : List (String × ConceptType)
  relations_by_name : List (String × RelationType)

namespace ModelConceptsQuery

/-- Embeds `ModelConceptsQuery.post` (api.py lines 453-461):
`sorted(list(concept_model.by_name.keys()))`. -/
def post (concept_model : ConceptModel) : List String :=
  (concept_model.by_name.map Prod.fst).mergeSort

end ModelConceptsQuery

namespace ModelRelationsQuery

/-- Embeds `ModelRelationsQuery.post` (api.py lines 492-500):
`sorted(list(concept_model.relations_by_name.keys()))`. -/
def post (concept_model : ConceptModel) : List String :=
  (concept_model.relations_by_name.map Prod.fst).mergeSort

end ModelRelationsQuery

/-- C6: the concept-name listing returns exactly the keys of the
name-keyed concept table, as a sequence sorted in ascending order. -/
theorem model_concepts_sorted_keys (m : ConceptModel) :
    (ModelConceptsQuery.post m).Sorted (· ≤ ·) ∧
    (ModelConceptsQuery.post m).Perm (m.by_name.map Prod.fst) :=
  ⟨List.sorted_mergeSort' _, List.mergeSort_perm _ _⟩

/-- C7: the relation-name listing returns exactly the keys of the
relation lookup table — a table separate from the concept-type table —
as a sequence sorted in ascending order. -/
theorem model_relations_sorted_keys (m : ConceptModel) :
    (ModelRelationsQuery.post m).Sorted (· ≤ ·) ∧
    (ModelRelationsQuery.post m).Perm (m.relations_by_name.map Prod.fst) :=
  ⟨List.sorted_mergeSort' _, List.mergeSort_perm _ _⟩

/-- The merge-messages request body: both keys optional, read with
`request.json.get('messages', [])` and
`request.json.get('interpreter_options', {})`. -/
structure MergeRequest where
  messages : Option (List GraphMessage)
  interpreter_options : Option (List (String × Bool))

namespace MergeMessages

/-- Embeds `MergeMessages.post` (api.py lines 254-257): reads the two optional
keys with their defaults, constructs `TranQL(options=options)`, and
returns `SelectStatement.merge_results(messages, tranql)`.  The
constructed interpreter is returned alongside so its options are
observable. -/
def post (request_json : MergeRequest) : TranQL × GraphMessage :=
  let options := request_json.interpreter_options.getD []
  let messages := request_json.messages.getD []
  let tranql : TranQL := { options := options }
  (tranql, SelectStatement.merge_results messages tranql)

end MergeMessages

/-- C10: omitting `messages` makes the merge run over the empty
sequence, and omitting `interpreter_options` constructs the interpreter
with an empty options mapping; neither omission errors (the endpoint is
total on such bodies). -/
theorem merge_messages_defaults (msgs : Option (List GraphMessage))
    (opts : Option (List (String × Bool))) :
    (MergeMessages.post { messages := none, interpreter_options := opts }).2 =
      SelectStatement.merge_results []
        { options := opts.getD [] } ∧
    (MergeMessages.post { messages := msgs, interpreter_options := none
      }).1.options = [] := by
  exact ⟨rfl, rfl⟩

end Tranql
